import Mathlib

/-!
# MPRIS control extension: discovery, command registry and query matching

A shallow embedding of `src/plugins/mpris/src/main.cpp` of the albert launcher:

* `MPRIS.Extension`      the constructor, which fills the command registry,
* `MPRIS.setupSession`   the discovery of the running media players,
* `MPRIS.handleQuery`    the matching loop that turns a search term into matches,
* `MPRIS.percentage`     the score expression of the matching loop, over a model of
                         single-precision arithmetic.

Qt values are modelled by plain data: a `QString` is a `String` (its sequence of characters,
`length` being their number), a `QStringList` a `List String`, a `QList` a `List`, a `QMap`
a finite map given by its lookup function.  Diagnostic output (`qDebug`, `qCritical`) has no
effect on the state and is left out.
-/

namespace MPRIS

/-! ## Qt data -/

/-- The test `s.startsWith(t)` of `QString`, case sensitive. -/
def startsWith (s t : String) : Bool :=
  t.data.isPrefixOf s.data

/-- Lower-casing of the ASCII letters, the part of `QString::toLower` that the concrete
scenarios below exercise.  The matching loop itself takes the case mapping as an argument. -/
def asciiLower (s : String) : String :=
  ⟨s.data.map Char.toLower⟩

/-- A `QVariant`: invalid, a typed null, or one of the value kinds that occur here. -/
inductive QVariant where
  | invalid
  | null
  | bool (b : Bool)
  | string (s : String)
  | stringList (l : List String)
deriving DecidableEq, Repr

/-- The test `QVariant::isValid`. -/
def QVariant.isValid : QVariant → Bool
  | .invalid => false
  | _ => true

/-- The test `QVariant::isNull`. -/
def QVariant.isNull : QVariant → Bool
  | .invalid => true
  | .null => true
  | _ => false

/-- The conversion `QVariant::toStringList`: a string list converts to itself, a string to
the one-element list, everything else to the empty list. -/
def QVariant.toStringList : QVariant → List String
  | .stringList l => l
  | .string s => [s]
  | _ => []

/-- The kinds of `QDBusMessage`. -/
inductive MessageType where
  | InvalidMessage
  | MethodCallMessage
  | ReplyMessage
  | ErrorMessage
  | SignalMessage
deriving DecidableEq, Repr

/-- A `QDBusMessage` as far as `setupSession` inspects it. -/
structure QDBusMessage where
  type : MessageType
  arguments : List QVariant
  errorMessage : String
deriving DecidableEq, Repr

/-- The session bus as the extension sees it: whether it is connected, the response to the
`ListNames` call (`findPlayerMsg`), and the outcome of reading a property of a remote object,
given the endpoint, the object path and the property name (`none` when the read fails). -/
structure SessionBus where
  isConnected : Bool
  call : QDBusMessage
  readProperty : String → String → String → Option QVariant

/-! ## Players, commands and the private state -/

/-- A media player, constructed as `new Player(busid)`. -/
structure Player where
  busId : String
deriving DecidableEq, Repr

/-- Modelled from the spec: the applicability predicate of a command, whose class (`command.h`)
is not part of the shown code.  It is the object path, the property to read, the value
expected, and the flag `invert` that turns "must equal" into "must not equal". -/
structure Applicability where
  path : String
  property : String
  expectedValue : QVariant
  invert : Bool
deriving DecidableEq, Repr

/-- Modelled from the spec: the class `Command` of `command.h`, which is not part of the shown
code.  It holds the five constructor arguments (label, title, subtext, DBus method, icon) and
the applicability predicate, if one was set. -/
structure Command where
  label : String
  title : String
  subtext : String
  method : String
  icon : String
  applicable : Option Applicability
deriving DecidableEq, Repr

/-- The constructor `new Command(label, title, subtext, method, icon)`. -/
def Command.new (label title subtext method icon : String) : Command :=
  ⟨label, title, subtext, method, icon, none⟩

/-- Modelled from the spec: the setter `applicableWhen(path, property, expectedValue, flag)` of
`command.h`, which is not part of the shown code.  The fourth argument is the outcome
required of the comparison: the constructor passes `false` for `play`, which the
specification describes as "playback status not equal to Playing", and `true` for `pause`,
which it describes as "playback status equal to Playing".  The `invert` of the predicate is
therefore the negation of the argument. -/
def Command.applicableWhen (c : Command) (path property : String) (expectedValue : QVariant)
    (positivity : Bool) : Command :=
  { c with applicable := some ⟨path, property, expectedValue, !positivity⟩ }

/-- Modelled from the spec: `Command::isApplicable`, whose source (`command.cpp`) is not part
of the shown code.  It reads the one named property of the player at the fixed object path,
compares the value read with `expectedValue` by equality and XORs the comparison with
`invert`; a failed read makes the predicate false.  A command on which `applicableWhen` was
never called has nothing to check and is applicable. -/
def Command.isApplicable (readProperty : String → String → String → Option QVariant)
    (c : Command) (p : Player) : Bool :=
  match c.applicable with
  | none => true
  | some a =>
    match readProperty p.busId a.path a.property with
    | none => false
    | some v => xor (decide (v = a.expectedValue)) a.invert

/-- A `QMap<QString, Command>`, given by its lookup function. -/
abbrev CommandMap := String → Option Command

/-- The method `QMap::insert(key, value)`: a later value replaces an earlier one. -/
def CommandMap.insert (m : CommandMap) (key : String) (value : Command) : CommandMap :=
  fun k => if k = key then some value else m k

/-- The state `MPRISPrivate` (without the configuration widget). -/
structure MPRISPrivate where
  mediaPlayers : List Player
  commands : List String
  commandObjects : CommandMap

/-- The state of a freshly allocated `MPRISPrivate`. -/
def MPRISPrivate.new : MPRISPrivate :=
  ⟨[], [], fun _ => none⟩

/-- One registration step of the constructor: `d->commands.append(label)` followed by
`d->commandObjects.insert(label, *nextToAdd)`. -/
def MPRISPrivate.addCommand (d : MPRISPrivate) (label : String) (nextToAdd : Command) :
    MPRISPrivate :=
  { d with commands := d.commands ++ [label],
           commandObjects := d.commandObjects.insert label nextToAdd }

/-- The macro `themeOr(name, fallbk)` over the icon lookup `XdgIconLookup::iconPath`. -/
def themeOr (iconPath : String → String) (name fallbk : String) : String :=
  if (iconPath name).isEmpty then fallbk else iconPath name

/-- The command `play` as the constructor builds it. -/
def playCommand (iconPath : String → String) : Command :=
  (Command.new "play" "Start playing" "Start playing on %1" "Play"
    (themeOr iconPath "media-playback-start" ":play")).applicableWhen
    "/org/mpris/MediaPlayer2" "org.mpris.MediaPlayer2.Player.PlaybackStatus"
    (.string "Playing") false

/-- The command `pause` as the constructor builds it. -/
def pauseCommand (iconPath : String → String) : Command :=
  (Command.new "pause" "Pause" "Pause %1" "Pause"
    (themeOr iconPath "media-playback-pause" ":pause")).applicableWhen
    "/org/mpris/MediaPlayer2" "org.mpris.MediaPlayer2.Player.PlaybackStatus"
    (.string "Playing") true

/-- The command `stop` as the constructor builds it. -/
def stopCommand (iconPath : String → String) : Command :=
  (Command.new "stop" "Stop playing" "Stop %1" "Stop"
    (themeOr iconPath "media-playback-stop" ":stop")).applicableWhen
    "/org/mpris/MediaPlayer2" "org.mpris.MediaPlayer2.Player.PlaybackStatus"
    (.string "Playing") true

/-- The command `next` as the constructor builds it. -/
def nextCommand (iconPath : String → String) : Command :=
  (Command.new "next" "Next track" "Play next track on %1" "Next"
    (themeOr iconPath "media-skip-forward" ":next")).applicableWhen
    "/org/mpris/MediaPlayer2" "org.mpris.MediaPlayer2.Player.CanGoNext"
    (.bool true) true

/-- The command `previous` as the constructor builds it. -/
def previousCommand (iconPath : String → String) : Command :=
  (Command.new "previous" "Previous track" "Play previous track on %1" "Previous"
    (themeOr iconPath "media-skip-backward" ":prev")).applicableWhen
    "/org/mpris/MediaPlayer2" "org.mpris.MediaPlayer2.Player.CanGoPrevious"
    (.bool true) true

/-- The constructor `MPRIS::Extension::Extension`: the state it leaves in `d`. -/
def Extension (iconPath : String → String) : MPRISPrivate :=
  ((((MPRISPrivate.new.addCommand "play" (playCommand iconPath)).addCommand
    "pause" (pauseCommand iconPath)).addCommand
    "stop" (stopCommand iconPath)).addCommand
    "next" (nextCommand iconPath)).addCommand
    "previous" (previousCommand iconPath)

/-- A registry built the way the constructor builds its own: the commands are registered one
after the other, each under its label, starting from the empty state. -/
def registerAll (cs : List Command) : MPRISPrivate :=
  cs.foldl (fun d c => d.addCommand c.label c) MPRISPrivate.new

/-- The five commands of the constructor, in the order of registration. -/
def registeredCommands (iconPath : String → String) : List Command :=
  [playCommand iconPath, pauseCommand iconPath, stopCommand iconPath, nextCommand iconPath,
    previousCommand iconPath]

/-! ## Discovery -/

/-- The namespace that the names of MPRIS players start with. -/
def mprisNamespace : String := "org.mpris.MediaPlayer2."

/-- The method `MPRIS::Extension::setupSession`: the old players are deleted first; the names
of the `ListNames` response that start with the MPRIS namespace are collected in `busids`,
and a player is appended for each of them. -/
def setupSession (bus : SessionBus) (d : MPRISPrivate) : MPRISPrivate :=
  let d := { d with mediaPlayers := [] }
  if !bus.isConnected then d
  else
    let response := bus.call
    if response.type = MessageType.ReplyMessage then
      let args := response.arguments
      if args.length = 1 then
        match args.head? with
        | none => d
        | some arg =>
          if !arg.isNull && arg.isValid then
            let runningBusEndpoints := arg.toStringList
            if !runningBusEndpoints.isEmpty then
              let busids := runningBusEndpoints.foldl
                (fun busids id => if startsWith id mprisNamespace then busids ++ [id] else busids)
                []
              busids.foldl
                (fun d busid => { d with mediaPlayers := d.mediaPlayers ++ [Player.mk busid] })
                d
            else d
          else d
      else d
    else d

/-! ## Single-precision arithmetic

The score expression `(float)q.length() / (float)cmd.length() * 100` is evaluated in IEEE-754
binary32, every operation rounding to nearest, ties to even.  The model keeps the 24-bit
significand exactly and leaves the exponent range unbounded: the operands are lengths of
strings (below `2 ^ 31`) and the constant 100, so every value that occurs lies far inside the
normal range of binary32. -/

/-- A non-negative binary32 value: the finite value `num / den` (with `den` a power of two),
positive infinity, or a NaN. -/
inductive F32 where
  | fin (num den : Nat)
  | inf
  | nan
deriving DecidableEq, Repr

/-- The integer nearest to `n / d`, a tie going to the even neighbour. -/
def roundNearestEven (n d : Nat) : Nat :=
  let k := n / d
  let r := n % d
  if 2 * r < d then k
  else if d < 2 * r then k + 1
  else if k % 2 = 0 then k else k + 1

/-- The number of halvings that bring `n` below 2, at most `fuel` of them. -/
def ilog2 : Nat → Nat → Nat
  | 0, _ => 0
  | fuel + 1, n => if n < 2 then 0 else ilog2 fuel (n / 2) + 1

/-- The binary exponent of the fraction `p / q`, for positive `p` and `q`: the integer `t`
with `2 ^ t ≤ p / q < 2 ^ (t + 1)`. -/
def floorLog2 (p q : Nat) : Int :=
  let d : Int := (ilog2 p p : Int) - (ilog2 q q : Int)
  if q * 2 ^ d.toNat ≤ p * 2 ^ (-d).toNat then d else d - 1

/-- The binary32 value nearest to the fraction `p / q` (for `q > 0`): the fraction is rounded
to a multiple of `2 ^ e`, where `e` is its binary exponent less 23. -/
def F32.round (p q : Nat) : F32 :=
  if p = 0 then .fin 0 1
  else
    let e := floorLog2 p q - 23
    .fin (roundNearestEven (p * 2 ^ (-e).toNat) (q * 2 ^ e.toNat) * 2 ^ e.toNat)
      (2 ^ (-e).toNat)

/-- The conversion `(float)n` of a non-negative integer. -/
def F32.ofInt (n : Nat) : F32 :=
  F32.round n 1

/-- The value of `(float)n`, an integer: `n` itself when it has at most 24 significant bits,
and `n` rounded to a multiple of `2 ^ (l - 23)` when its binary exponent `l` exceeds 23. -/
def roundInt (n : Nat) : Nat :=
  if ilog2 n n ≤ 23 then n
  else roundNearestEven n (2 ^ (ilog2 n n - 23)) * 2 ^ (ilog2 n n - 23)

/-- The division of binary32 values. -/
def F32.div : F32 → F32 → F32
  | .fin n1 d1, .fin n2 d2 =>
    if n2 = 0 then (if n1 = 0 then .nan else .inf) else F32.round (n1 * d2) (d1 * n2)
  | .fin _ _, .inf => .fin 0 1
  | .inf, .fin _ _ => .inf
  | _, _ => .nan

/-- The multiplication of binary32 values. -/
def F32.mul : F32 → F32 → F32
  | .fin n1 d1, .fin n2 d2 => F32.round (n1 * n2) (d1 * d2)
  | .fin n _, .inf => if n = 0 then .nan else .inf
  | .inf, .fin n _ => if n = 0 then .nan else .inf
  | .inf, .inf => .inf
  | _, _ => .nan

/-- The conversion of a binary32 value to `short`: the fraction is discarded.  C++ leaves the
conversion undefined when the integer part does not fit a `short`; the model then takes what
the x86-64 code of the conversion yields (`cvttss2si` to 32 bits, of which the low 16 bits are
kept): the two's complement wrap-around of an integer part below `2 ^ 31`, and 0 for a larger
one, for infinity and for a NaN. -/
def F32.toShort : F32 → Int
  | .fin n d =>
    let t := n / d
    if t < 2 ^ 31 then
      let w := t % 65536
      if w < 32768 then (w : Int) else (w : Int) - 65536
    else 0
  | _ => 0

/-- The score of the matching loop:
`short percentage = (float)q.length() / (float)cmd.length() * 100`. -/
def percentage (qlen cmdlen : Nat) : Int :=
  F32.toShort (F32.mul (F32.div (F32.ofInt qlen) (F32.ofInt cmdlen)) (F32.ofInt 100))

/-! ## Matching -/

/-- A match handed to the query by `addMatch(item, score)`.  The item that
`produceAlbertItem(player)` builds for a command is represented by the command and the player
it is built from. -/
structure Match where
  command : Command
  player : Player
  score : Int
deriving DecidableEq, Repr

/-- A query: the search term and the matches added so far. -/
structure Query where
  searchTerm : String
  results : List Match
deriving DecidableEq, Repr

/-- The method `Query::addMatch`. -/
def Query.addMatch (query : Query) (command : Command) (player : Player) (score : Int) :
    Query :=
  { query with results := query.results ++ [⟨command, player, score⟩] }

/-- The method `MPRIS::Extension::handleQuery`.  The case mapping `QString::toLower` and the
predicate `Command::isApplicable` are arguments.  A label of `d->commands` without an entry
in `d->commandObjects` (which no registration produces) adds nothing. -/
def handleQuery (toLower : String → String) (isApplicable : Command → Player → Bool)
    (d : MPRISPrivate) (query : Query) : Query :=
  if d.mediaPlayers.isEmpty then query
  else
    let q := toLower query.searchTerm
    let cmds := d.commands.foldl
      (fun cmds cmd => if startsWith cmd q then cmds ++ [cmd] else cmds) []
    cmds.foldl
      (fun query cmd =>
        let percentage := percentage q.length cmd.length
        match d.commandObjects cmd with
        | none => query
        | some toExec =>
          d.mediaPlayers.foldl
            (fun query p =>
              if isApplicable toExec p then query.addMatch toExec p percentage else query)
            query)
      query

/-- The state of an extension whose registry holds the commands `cs`, registered in this
order, and whose last discovery found the players `players`. -/
def session (cs : List Command) (players : List Player) : MPRISPrivate :=
  { registerAll cs with mediaPlayers := players }

/-- The matches that one pass of the outer loop of `handleQuery` adds for the label `cmd`,
the lower-cased search term being `q`. -/
def matchesOfLabel (isApplicable : Command → Player → Bool) (d : MPRISPrivate) (q cmd : String) :
    List Match :=
  match d.commandObjects cmd with
  | none => []
  | some toExec =>
    (d.mediaPlayers.filter (isApplicable toExec)).map
      (fun p => ⟨toExec, p, percentage q.length cmd.length⟩)

/-- The matches that `handleQuery` adds for a search term, starting from a query without
matches. -/
def matchesFor (toLower : String → String) (isApplicable : Command → Player → Bool)
    (d : MPRISPrivate) (searchTerm : String) : List Match :=
  (handleQuery toLower isApplicable d ⟨searchTerm, []⟩).results

/-! ## The score as the specification words it -/

/-- The integer nearest to `n / d`, a tie going away from zero. -/
def roundHalfUp (n d : Nat) : Nat :=
  (2 * n + d) / (2 * d)

/-- The score in the words of the specification, `min(100, round(100 * len(q) / len(id)))`,
with ties rounded away from zero. -/
def specScore (qlen idlen : Nat) : Int :=
  min 100 (roundHalfUp (100 * qlen) idlen : Int)

/-- The same score with ties rounded to even. -/
def specScoreEven (qlen idlen : Nat) : Int :=
  min 100 (roundNearestEven (100 * qlen) idlen : Int)

/-! ## The loops of `handleQuery` and `setupSession` as list operations -/

theorem foldl_append_if {α : Type} (p : α → Bool) (l init : List α) :
    l.foldl (fun acc x => if p x then acc ++ [x] else acc) init = init ++ l.filter p := by
  induction l generalizing init with
  | nil => simp
  | cons x xs ih =>
    by_cases hx : p x = true
    · simp [List.foldl_cons, ih, hx]
    · simp [List.foldl_cons, ih, hx]

theorem foldl_addMatch (app : Player → Bool) (c : Command) (s : Int) (players : List Player)
    (query : Query) :
    players.foldl (fun query p => if app p then query.addMatch c p s else query) query
      = ⟨query.searchTerm, query.results ++ (players.filter app).map (fun p => ⟨c, p, s⟩)⟩ := by
  induction players generalizing query with
  | nil => simp
  | cons x xs ih =>
    by_cases hx : app x = true
    · rw [List.foldl_cons, ih]
      simp [hx, Query.addMatch]
    · rw [List.foldl_cons, ih]
      simp [hx]

theorem foldl_labels (isApplicable : Command → Player → Bool) (d : MPRISPrivate) (q : String)
    (cmds : List String) (query : Query) :
    cmds.foldl
      (fun query cmd =>
        let percentage := percentage q.length cmd.length
        match d.commandObjects cmd with
        | none => query
        | some toExec =>
          d.mediaPlayers.foldl
            (fun query p =>
              if isApplicable toExec p then query.addMatch toExec p percentage else query)
            query)
      query
      = ⟨query.searchTerm, query.results ++ cmds.flatMap (matchesOfLabel isApplicable d q)⟩ := by
  induction cmds generalizing query with
  | nil => simp
  | cons cmd rest ih =>
    rw [List.foldl_cons, ih]
    cases hfind : d.commandObjects cmd with
    | none => simp [matchesOfLabel, hfind]
    | some toExec => simp [matchesOfLabel, hfind, foldl_addMatch]

theorem matchesOfLabel_no_players (isApplicable : Command → Player → Bool) (d : MPRISPrivate)
    (h : d.mediaPlayers = []) (q cmd : String) : matchesOfLabel isApplicable d q cmd = [] := by
  unfold matchesOfLabel
  cases d.commandObjects cmd <;> simp [h]

/-- The state that `handleQuery` returns, in closed form. -/
theorem handleQuery_eq (toLower : String → String) (isApplicable : Command → Player → Bool)
    (d : MPRISPrivate) (query : Query) :
    handleQuery toLower isApplicable d query
      = ⟨query.searchTerm, query.results ++
          (d.commands.filter (fun cmd => startsWith cmd (toLower query.searchTerm))).flatMap
            (matchesOfLabel isApplicable d (toLower query.searchTerm))⟩ := by
  unfold handleQuery
  by_cases hP : d.mediaPlayers = []
  · have h0 : ∀ l : List String,
        l.flatMap (matchesOfLabel isApplicable d (toLower query.searchTerm)) = [] := by
      intro l
      induction l with
      | nil => rfl
      | cons x xs ih => simp [List.flatMap_cons, ih, matchesOfLabel_no_players _ _ hP]
    simp [hP, h0]
  · have hE : d.mediaPlayers.isEmpty = false := by
      cases hd : d.mediaPlayers with
      | nil => exact absurd hd hP
      | cons _ _ => rfl
    simp only [hE, Bool.false_eq_true, if_false]
    rw [foldl_append_if, foldl_labels]
    simp

theorem matchesFor_eq (toLower : String → String) (isApplicable : Command → Player → Bool)
    (d : MPRISPrivate) (searchTerm : String) :
    matchesFor toLower isApplicable d searchTerm
      = (d.commands.filter (fun cmd => startsWith cmd (toLower searchTerm))).flatMap
          (matchesOfLabel isApplicable d (toLower searchTerm)) := by
  simp [matchesFor, handleQuery_eq]

/-! ## The registry -/

theorem foldl_addCommand_commands (cs : List Command) (d : MPRISPrivate) :
    (cs.foldl (fun d c => d.addCommand c.label c) d).commands
      = d.commands ++ cs.map Command.label := by
  induction cs generalizing d with
  | nil => simp
  | cons c rest ih =>
    rw [List.foldl_cons, ih]
    simp [MPRISPrivate.addCommand]

theorem foldl_addCommand_mediaPlayers (cs : List Command) (d : MPRISPrivate) :
    (cs.foldl (fun d c => d.addCommand c.label c) d).mediaPlayers = d.mediaPlayers := by
  induction cs generalizing d with
  | nil => simp
  | cons c rest ih =>
    rw [List.foldl_cons, ih]
    rfl

theorem foldl_addCommand_find_mem (cs : List Command) (d : MPRISPrivate) (k : String)
    (c : Command) (h : (cs.foldl (fun d c => d.addCommand c.label c) d).commandObjects k = some c) :
    (c ∈ cs ∧ c.label = k) ∨ d.commandObjects k = some c := by
  induction cs generalizing d with
  | nil => exact Or.inr h
  | cons c0 rest ih =>
    rw [List.foldl_cons] at h
    rcases ih _ h with ⟨hmem, hk⟩ | hd
    · exact Or.inl ⟨List.mem_cons_of_mem _ hmem, hk⟩
    · simp only [MPRISPrivate.addCommand, CommandMap.insert] at hd
      by_cases hkc : k = c0.label
      · rw [if_pos hkc] at hd
        injection hd with hd
        subst hd
        exact Or.inl ⟨List.mem_cons_self _ _, hkc.symm⟩
      · rw [if_neg hkc] at hd
        exact Or.inr hd

theorem foldl_addCommand_find_other (cs : List Command) (d : MPRISPrivate) (k : String)
    (h : k ∉ cs.map Command.label) :
    (cs.foldl (fun d c => d.addCommand c.label c) d).commandObjects k = d.commandObjects k := by
  induction cs generalizing d with
  | nil => rfl
  | cons c0 rest ih =>
    simp only [List.map_cons, List.mem_cons, not_or] at h
    rw [List.foldl_cons, ih _ h.2]
    simp [MPRISPrivate.addCommand, CommandMap.insert, h.1]

theorem foldl_addCommand_find_nodup (cs : List Command) (d : MPRISPrivate)
    (hnd : (cs.map Command.label).Nodup) (c : Command) (hc : c ∈ cs) :
    (cs.foldl (fun d c => d.addCommand c.label c) d).commandObjects c.label = some c := by
  induction cs generalizing d with
  | nil => simp at hc
  | cons c0 rest ih =>
    rw [List.map_cons, List.nodup_cons] at hnd
    rw [List.foldl_cons]
    rcases List.mem_cons.mp hc with rfl | hrest
    · rw [foldl_addCommand_find_other _ _ _ hnd.1]
      simp [MPRISPrivate.addCommand, CommandMap.insert]
    · exact ih _ hnd.2 hrest

theorem session_commands (cs : List Command) (players : List Player) :
    (session cs players).commands = cs.map Command.label := by
  simp [session, registerAll, foldl_addCommand_commands, MPRISPrivate.new]

theorem session_find_mem (cs : List Command) (players : List Player) (k : String) (c : Command)
    (h : (session cs players).commandObjects k = some c) : c ∈ cs ∧ c.label = k := by
  have h2 : (cs.foldl (fun d c => d.addCommand c.label c) MPRISPrivate.new).commandObjects k
      = some c := h
  rcases foldl_addCommand_find_mem cs _ k c h2 with hm | hd
  · exact hm
  · simp [MPRISPrivate.new] at hd

theorem session_find_nodup (cs : List Command) (players : List Player)
    (hnd : (cs.map Command.label).Nodup) (c : Command) (hc : c ∈ cs) :
    (session cs players).commandObjects c.label = some c :=
  foldl_addCommand_find_nodup cs MPRISPrivate.new hnd c hc

/-- The constructor builds the registry of its five commands. -/
theorem Extension_eq_registerAll (iconPath : String → String) :
    Extension iconPath = registerAll (registeredCommands iconPath) := rfl

/-- The matches of a session in closed form, over the registered commands themselves. -/
theorem matchesFor_session (toLower : String → String) (isApplicable : Command → Player → Bool)
    (cs : List Command) (players : List Player) (hnd : (cs.map Command.label).Nodup)
    (searchTerm : String) :
    matchesFor toLower isApplicable (session cs players) searchTerm
      = (cs.filter (fun c => startsWith c.label (toLower searchTerm))).flatMap
          (fun c => (players.filter (isApplicable c)).map
            (fun p => ⟨c, p, percentage (toLower searchTerm).length c.label.length⟩)) := by
  rw [matchesFor_eq, session_commands, List.filter_map, List.flatMap_map]
  apply List.flatMap_congr
  intro c hc
  have hmem : c ∈ cs := (List.mem_filter.mp hc).1
  simp only [Function.comp, matchesOfLabel, session_find_nodup cs players hnd c hmem]
  rfl

/-! ## Discovery -/

theorem foldl_append_player (busids : List String) (d : MPRISPrivate) :
    busids.foldl (fun d busid => { d with mediaPlayers := d.mediaPlayers ++ [Player.mk busid] }) d
      = { d with mediaPlayers := d.mediaPlayers ++ busids.map Player.mk } := by
  induction busids generalizing d with
  | nil => simp
  | cons b rest ih =>
    rw [List.foldl_cons, ih]
    simp

/-- The state that `setupSession` returns, in closed form: the registry is untouched, and the
player list is rebuilt from the response when the bus is connected and the response is a
reply with one argument that is neither null nor invalid; it is empty otherwise. -/
theorem setupSession_eq (bus : SessionBus) (d : MPRISPrivate) :
    setupSession bus d =
      { d with mediaPlayers :=
          if bus.isConnected = true ∧ bus.call.type = MessageType.ReplyMessage then
            match bus.call.arguments with
            | [arg] =>
              if arg.isNull = false ∧ arg.isValid = true then
                (arg.toStringList.filter (fun id => startsWith id mprisNamespace)).map Player.mk
              else []
            | _ => []
          else [] } := by
  unfold setupSession
  cases hconn : bus.isConnected
  · simp
  · by_cases htype : bus.call.type = MessageType.ReplyMessage
    · rcases hargs : bus.call.arguments with _ | ⟨arg, _ | ⟨arg2, rest⟩⟩
      · simp [htype, hargs]
      · by_cases hok : arg.isNull = false ∧ arg.isValid = true
        · by_cases hnil : arg.toStringList = []
          · simp [htype, hargs, hok, hnil]
          · simp [htype, hargs, hok, hnil, foldl_append_if, foldl_append_player]
        · rw [not_and_or] at hok
          rcases hok with h1 | h1 <;> simp [htype, hargs, h1]
      · simp [htype, hargs]
    · simp [htype]

/-- What is known of a match that `handleQuery` emits: its command, its player and its
score. -/
theorem mem_matchesFor (toLower : String → String) (isApplicable : Command → Player → Bool)
    (cs : List Command) (players : List Player) (searchTerm : String) (m : Match)
    (hm : m ∈ matchesFor toLower isApplicable (session cs players) searchTerm) :
    m.command ∈ cs ∧ startsWith m.command.label (toLower searchTerm) = true
      ∧ m.player ∈ players ∧ isApplicable m.command m.player = true
      ∧ m.score = percentage (toLower searchTerm).length m.command.label.length := by
  rw [matchesFor_eq, List.mem_flatMap] at hm
  obtain ⟨cmd, hcmd, hm⟩ := hm
  have hstart : startsWith cmd (toLower searchTerm) = true := (List.mem_filter.mp hcmd).2
  unfold matchesOfLabel at hm
  cases hfind : (session cs players).commandObjects cmd with
  | none => simp [hfind] at hm
  | some toExec =>
    simp only [hfind, List.mem_map, List.mem_filter] at hm
    obtain ⟨p, ⟨hp, happ⟩, rfl⟩ := hm
    obtain ⟨hmem, hlabel⟩ := session_find_mem cs players cmd toExec hfind
    refine ⟨hmem, ?_, hp, happ, ?_⟩
    · show startsWith toExec.label (toLower searchTerm) = true
      rw [hlabel]
      exact hstart
    · show percentage _ cmd.length = percentage _ toExec.label.length
      rw [hlabel]

theorem startsWith_length (s t : String) (h : startsWith s t = true) : t.length ≤ s.length := by
  unfold startsWith at h
  exact (List.isPrefixOf_iff_prefix.mp h).length_le

theorem startsWith_empty (s : String) : startsWith s "" = true := by
  simp [startsWith]

theorem length_pos_of_ne_empty (s : String) (h : s ≠ "") : 0 < s.length := by
  rcases s with ⟨l⟩
  cases l with
  | nil => exact absurd rfl h
  | cons a l => simp [String.length]

/-! ## Rounding to the nearest integer -/

theorem roundNearestEven_ge (n d N : Nat) (hd : 0 < d) (h : N * d ≤ n) :
    N ≤ roundNearestEven n d := by
  have hk : N ≤ n / d := (Nat.le_div_iff_mul_le hd).mpr h
  unfold roundNearestEven
  simp only
  split_ifs <;> omega

theorem roundNearestEven_le (n d N : Nat) (hd : 0 < d) (h : n ≤ N * d) :
    roundNearestEven n d ≤ N := by
  have hk : n / d ≤ N := by
    calc n / d ≤ N * d / d := Nat.div_le_div_right h
      _ = N := Nat.mul_div_cancel N hd
  have hdm := Nat.div_add_mod n d
  have hup : 0 < n % d → n / d + 1 ≤ N := by
    intro hr
    by_contra hlt
    have hNk : N = n / d := by omega
    rw [hNk, Nat.mul_comm] at h
    omega
  unfold roundNearestEven
  simp only
  split_ifs <;> omega

theorem roundNearestEven_mono (n1 n2 d : Nat) (h : n1 ≤ n2) :
    roundNearestEven n1 d ≤ roundNearestEven n2 d := by
  rcases Nat.eq_zero_or_pos d with rfl | hd
  · simp only [roundNearestEven, Nat.div_zero, Nat.mod_zero]
    split_ifs <;> omega
  have hk : n1 / d ≤ n2 / d := Nat.div_le_div_right h
  have h1 := Nat.div_add_mod n1 d
  have h2 := Nat.div_add_mod n2 d
  have hr1 := Nat.mod_lt n1 hd
  have hr2 := Nat.mod_lt n2 hd
  rcases Nat.lt_or_ge (n1 / d) (n2 / d) with hlt | hge
  · have hle1 : roundNearestEven n1 d ≤ n1 / d + 1 := by
      unfold roundNearestEven
      simp only
      split_ifs <;> omega
    have hge2 : n2 / d ≤ roundNearestEven n2 d := by
      unfold roundNearestEven
      simp only
      split_ifs <;> omega
    omega
  · have hkeq : n1 / d = n2 / d := by omega
    have hr : n1 % d ≤ n2 % d := by
      rw [hkeq] at h1
      omega
    unfold roundNearestEven
    simp only
    rw [hkeq]
    split_ifs <;> omega

theorem roundNearestEven_exact (N d : Nat) (hd : 0 < d) : roundNearestEven (N * d) d = N := by
  unfold roundNearestEven
  simp [Nat.mul_div_cancel N hd, hd]

/-! ## The binary exponent -/

theorem ilog2_spec (fuel n : Nat) (hfuel : n ≤ fuel) (hn : 0 < n) :
    2 ^ ilog2 fuel n ≤ n ∧ n < 2 ^ (ilog2 fuel n + 1) := by
  induction fuel generalizing n with
  | zero => omega
  | succ fuel ih =>
    unfold ilog2
    by_cases h2 : n < 2
    · have h1 : n = 1 := by omega
      simp [h1]
    · simp only [h2, if_false]
      have hhalf : 0 < n / 2 := by omega
      have hle : n / 2 ≤ fuel := by omega
      obtain ⟨ihl, ihu⟩ := ih (n / 2) hle hhalf
      constructor
      · rw [pow_succ]
        omega
      · rw [pow_succ]
        omega

theorem ilog2_mono (a b : Nat) (ha : 0 < a) (hab : a ≤ b) : ilog2 a a ≤ ilog2 b b := by
  have h1 := (ilog2_spec a a le_rfl ha).1
  have h2 := (ilog2_spec b b le_rfl (by omega)).2
  have h3 : 2 ^ ilog2 a a < 2 ^ (ilog2 b b + 1) := by omega
  have h4 := (Nat.pow_lt_pow_iff_right (by norm_num : 1 < 2)).mp h3
  omega

theorem floorLog2_nonneg (p q : Nat) (hp : 0 < p) (hq : 0 < q) (ht : 0 ≤ floorLog2 p q) :
    q * 2 ^ (floorLog2 p q).toNat ≤ p := by
  have hlp := (ilog2_spec p p le_rfl hp).1
  have hlq := (ilog2_spec q q le_rfl hq).2
  unfold floorLog2 at ht ⊢
  simp only at ht ⊢
  split_ifs at ht ⊢ with hc
  · have h0 : (-((ilog2 p p : Int) - (ilog2 q q : Int))).toNat = 0 := by omega
    rw [h0] at hc
    simpa using hc
  · have hd : ((ilog2 p p : Int) - (ilog2 q q : Int) - 1).toNat = ilog2 p p - (ilog2 q q + 1) := by
      omega
    have hle : ilog2 q q + 1 ≤ ilog2 p p := by omega
    rw [hd]
    have hpow : 2 ^ (ilog2 q q + 1) * 2 ^ (ilog2 p p - (ilog2 q q + 1)) = 2 ^ ilog2 p p := by
      rw [← pow_add]
      congr 1
      omega
    have hmul : q * 2 ^ (ilog2 p p - (ilog2 q q + 1))
        ≤ 2 ^ (ilog2 q q + 1) * 2 ^ (ilog2 p p - (ilog2 q q + 1)) :=
      Nat.mul_le_mul_right _ (Nat.le_of_lt hlq)
    omega

theorem floorLog2_int (n : Nat) (hn : 0 < n) : floorLog2 n 1 = (ilog2 n n : Int) := by
  have hl := (ilog2_spec n n le_rfl hn).1
  unfold floorLog2
  have h1 : ilog2 1 1 = 0 := by decide
  simp only [h1]
  have h2 : ((ilog2 n n : Int) - ((0 : Nat) : Int)).toNat = ilog2 n n := by omega
  have h3 : (-((ilog2 n n : Int) - ((0 : Nat) : Int))).toNat = 0 := by omega
  rw [h2, h3]
  simp [hl]

theorem floorLog2_self (p : Nat) : floorLog2 p p = 0 := by
  unfold floorLog2
  simp

/-! ## Bounds on rounded values -/

/-- A fraction that is at most the integer `B` (below `2 ^ 24`) rounds to a value that is at
most `B`. -/
theorem round_le (p q B : Nat) (hq : 0 < q) (hB : B < 2 ^ 24) (h : p ≤ B * q) :
    ∃ n d, F32.round p q = F32.fin n d ∧ 0 < d ∧ n ≤ B * d := by
  rcases Nat.eq_zero_or_pos p with rfl | hp
  · exact ⟨0, 1, by simp [F32.round], by norm_num, by omega⟩
  have ht : floorLog2 p q ≤ 23 := by
    by_contra hgt
    have hge : (24 : Int) ≤ floorLog2 p q := by omega
    have h1 := floorLog2_nonneg p q hp hq (by omega)
    have h24 : 24 ≤ (floorLog2 p q).toNat := by omega
    have h2 : 2 ^ 24 ≤ 2 ^ (floorLog2 p q).toNat := Nat.pow_le_pow_right (by norm_num) h24
    have h3 : q * 2 ^ 24 ≤ q * 2 ^ (floorLog2 p q).toNat := Nat.mul_le_mul_left q h2
    have h4 : B * q < 2 ^ 24 * q := Nat.mul_lt_mul_of_pos_right hB hq
    have h5 : q * 2 ^ 24 = 2 ^ 24 * q := Nat.mul_comm _ _
    omega
  have he : (floorLog2 p q - 23).toNat = 0 := by omega
  refine ⟨_, _, by simp only [F32.round, Nat.ne_of_gt hp, if_false]; rfl, ?_, ?_⟩
  · exact Nat.pos_pow_of_pos _ (by norm_num)
  · rw [he]
    simp only [pow_zero, Nat.mul_one]
    apply roundNearestEven_le _ _ _ hq
    calc p * 2 ^ (-(floorLog2 p q - 23)).toNat
        ≤ B * q * 2 ^ (-(floorLog2 p q - 23)).toNat := Nat.mul_le_mul_right _ h
      _ = B * 2 ^ (-(floorLog2 p q - 23)).toNat * q := by ring

/-! ## The conversion of a length to binary32 -/

theorem ofInt_eq (n : Nat) (hn : 0 < n) :
    F32.ofInt n = F32.fin (roundInt n * 2 ^ (23 - ilog2 n n)) (2 ^ (23 - ilog2 n n)) := by
  unfold F32.ofInt F32.round roundInt
  simp only [Nat.ne_of_gt hn, if_false, floorLog2_int n hn]
  by_cases hl : ilog2 n n ≤ 23
  · have h1 : ((ilog2 n n : Int) - 23).toNat = 0 := by omega
    have h2 : (-((ilog2 n n : Int) - 23)).toNat = 23 - ilog2 n n := by omega
    have h3 : roundNearestEven (n * 2 ^ (23 - ilog2 n n)) 1 = n * 2 ^ (23 - ilog2 n n) := by
      simpa using roundNearestEven_exact (n * 2 ^ (23 - ilog2 n n)) 1 (by norm_num)
    simp [h1, h2, h3, hl]
  · have h1 : ((ilog2 n n : Int) - 23).toNat = ilog2 n n - 23 := by omega
    have h2 : (-((ilog2 n n : Int) - 23)).toNat = 0 := by omega
    have h3 : 23 - ilog2 n n = 0 := by omega
    simp [h1, h2, h3, hl]

theorem roundInt_lower (n : Nat) (hn : 0 < n) : 2 ^ ilog2 n n ≤ roundInt n := by
  have hl := (ilog2_spec n n le_rfl hn).1
  unfold roundInt
  split_ifs with h
  · exact hl
  · have hs : 2 ^ 23 * 2 ^ (ilog2 n n - 23) = 2 ^ ilog2 n n := by
      rw [← pow_add]
      congr 1
      omega
    have hpos : 0 < 2 ^ (ilog2 n n - 23) := Nat.pos_pow_of_pos _ (by norm_num)
    have hge := roundNearestEven_ge n (2 ^ (ilog2 n n - 23)) (2 ^ 23) hpos (by omega)
    calc 2 ^ ilog2 n n = 2 ^ 23 * 2 ^ (ilog2 n n - 23) := hs.symm
      _ ≤ roundNearestEven n (2 ^ (ilog2 n n - 23)) * 2 ^ (ilog2 n n - 23) :=
        Nat.mul_le_mul_right _ hge

theorem roundInt_upper (n : Nat) (hn : 0 < n) : roundInt n ≤ 2 ^ (ilog2 n n + 1) := by
  have hu := (ilog2_spec n n le_rfl hn).2
  unfold roundInt
  split_ifs with h
  · exact Nat.le_of_lt hu
  · have hs : 2 ^ 24 * 2 ^ (ilog2 n n - 23) = 2 ^ (ilog2 n n + 1) := by
      rw [← pow_add]
      congr 1
      omega
    have hpos : 0 < 2 ^ (ilog2 n n - 23) := Nat.pos_pow_of_pos _ (by norm_num)
    have hle := roundNearestEven_le n (2 ^ (ilog2 n n - 23)) (2 ^ 24) hpos (by omega)
    calc roundNearestEven n (2 ^ (ilog2 n n - 23)) * 2 ^ (ilog2 n n - 23)
        ≤ 2 ^ 24 * 2 ^ (ilog2 n n - 23) := Nat.mul_le_mul_right _ hle
      _ = 2 ^ (ilog2 n n + 1) := hs

theorem roundInt_pos (n : Nat) (hn : 0 < n) : 0 < roundInt n :=
  Nat.lt_of_lt_of_le (Nat.pos_pow_of_pos _ (by norm_num)) (roundInt_lower n hn)

/-- The conversion `(float)n` is monotone. -/
theorem roundInt_mono (a b : Nat) (ha : 0 < a) (hab : a ≤ b) : roundInt a ≤ roundInt b := by
  have hb : 0 < b := by omega
  have hl := ilog2_mono a b ha hab
  rcases Nat.lt_or_ge (ilog2 a a) (ilog2 b b) with hlt | hge
  · have h1 := roundInt_upper a ha
    have h2 := roundInt_lower b hb
    have h3 : 2 ^ (ilog2 a a + 1) ≤ 2 ^ ilog2 b b := Nat.pow_le_pow_right (by norm_num) hlt
    omega
  · have heq : ilog2 a a = ilog2 b b := by omega
    unfold roundInt
    rw [heq]
    split_ifs with h
    · exact hab
    · exact Nat.mul_le_mul_right _ (roundNearestEven_mono a b _ hab)

theorem ofInt_le (a b : Nat) (hb : 0 < b) (hab : a ≤ b) :
    ∃ na da nb db, F32.ofInt a = F32.fin na da ∧ F32.ofInt b = F32.fin nb db
      ∧ 0 < da ∧ 0 < db ∧ 0 < nb ∧ na * db ≤ nb * da := by
  have hposb : 0 < 2 ^ (23 - ilog2 b b) := Nat.pos_pow_of_pos _ (by norm_num)
  rcases Nat.eq_zero_or_pos a with rfl | ha
  · exact ⟨0, 1, _, _, by simp [F32.ofInt, F32.round], ofInt_eq b hb, by norm_num, hposb,
      Nat.mul_pos (roundInt_pos b hb) hposb, by simp⟩
  · have hposa : 0 < 2 ^ (23 - ilog2 a a) := Nat.pos_pow_of_pos _ (by norm_num)
    refine ⟨_, _, _, _, ofInt_eq a ha, ofInt_eq b hb, hposa, hposb,
      Nat.mul_pos (roundInt_pos b hb) hposb, ?_⟩
    have hm := roundInt_mono a b ha hab
    calc roundInt a * 2 ^ (23 - ilog2 a a) * 2 ^ (23 - ilog2 b b)
        ≤ roundInt b * 2 ^ (23 - ilog2 a a) * 2 ^ (23 - ilog2 b b) :=
          Nat.mul_le_mul_right _ (Nat.mul_le_mul_right _ hm)
      _ = roundInt b * 2 ^ (23 - ilog2 b b) * 2 ^ (23 - ilog2 a a) := by ring

/-! ## The score -/

theorem ofInt_hundred : F32.ofInt 100 = F32.fin 13107200 131072 := by decide

theorem toShort_le (n d : Nat) (hd : 0 < d) (h : n ≤ 100 * d) :
    0 ≤ F32.toShort (F32.fin n d) ∧ F32.toShort (F32.fin n d) ≤ 100 := by
  have ht : n / d ≤ 100 := by
    calc n / d ≤ 100 * d / d := Nat.div_le_div_right h
      _ = 100 := Nat.mul_div_cancel 100 hd
  unfold F32.toShort
  simp only
  have h1 : n / d < 2 ^ 31 := by
    have : (100 : Nat) < 2 ^ 31 := by norm_num
    omega
  have h2 : n / d % 65536 = n / d := Nat.mod_eq_of_lt (by omega)
  rw [if_pos h1, h2, if_pos (by omega)]
  omega

/-- The score of a query that is not longer than the (non-empty) label lies between 0 and
100. -/
theorem percentage_bounds (a b : Nat) (hb : 0 < b) (hab : a ≤ b) :
    0 ≤ percentage a b ∧ percentage a b ≤ 100 := by
  obtain ⟨na, da, nb, db, hA, hB, hda, hdb, hnb, hle⟩ := ofInt_le a b hb hab
  unfold percentage
  rw [hA, hB, ofInt_hundred]
  simp only [F32.div, Nat.ne_of_gt hnb, if_false]
  obtain ⟨n, d, hX, hd, hn⟩ := round_le (na * db) (da * nb) 1 (Nat.mul_pos hda hnb)
    (by norm_num) (by rw [Nat.one_mul, Nat.mul_comm da nb]; exact hle)
  rw [hX]
  simp only [F32.mul]
  obtain ⟨n2, d2, hY, hd2, hn2⟩ := round_le (n * 13107200) (d * 131072) 100
    (Nat.mul_pos hd (by norm_num)) (by norm_num) (by omega)
  rw [hY]
  exact toShort_le n2 d2 hd2 hn2

/-- A query as long as the label scores 100. -/
theorem percentage_self (n : Nat) (hn : 0 < n) : percentage n n = 100 := by
  have hpos : 0 < 2 ^ (23 - ilog2 n n) := Nat.pos_pow_of_pos _ (by norm_num)
  have hnum : roundInt n * 2 ^ (23 - ilog2 n n) ≠ 0 :=
    Nat.ne_of_gt (Nat.mul_pos (roundInt_pos n hn) hpos)
  have hprod : 0 < roundInt n * 2 ^ (23 - ilog2 n n) * 2 ^ (23 - ilog2 n n) :=
    Nat.mul_pos (Nat.pos_of_ne_zero hnum) hpos
  unfold percentage
  rw [ofInt_eq n hn, ofInt_hundred]
  simp only [F32.div, hnum, if_false]
  rw [Nat.mul_comm (2 ^ (23 - ilog2 n n)) (roundInt n * 2 ^ (23 - ilog2 n n))]
  have hround : ∀ p : Nat, 0 < p → F32.round p p = F32.fin 8388608 8388608 := by
    intro p hp
    unfold F32.round
    simp only [Nat.ne_of_gt hp, if_false, floorLog2_self]
    have h1 : ((0 : Int) - 23).toNat = 0 := by decide
    have h2 : (-((0 : Int) - 23)).toNat = 23 := by decide
    rw [h1, h2]
    have h3 := roundNearestEven_exact (2 ^ 23) p hp
    rw [Nat.mul_comm] at h3
    simp only [pow_zero, Nat.mul_one]
    rw [h3]
    norm_num
  rw [hround _ hprod]
  decide

theorem percentage_zero (n : Nat) : percentage 0 n = 0 := by
  rcases Nat.eq_zero_or_pos n with rfl | hn
  · decide
  · have hpos : 0 < 2 ^ (23 - ilog2 n n) := Nat.pos_pow_of_pos _ (by norm_num)
    have hnum : roundInt n * 2 ^ (23 - ilog2 n n) ≠ 0 :=
      Nat.ne_of_gt (Nat.mul_pos (roundInt_pos n hn) hpos)
    have h0 : F32.ofInt 0 = F32.fin 0 1 := by decide
    unfold percentage
    rw [ofInt_eq n hn, ofInt_hundred, h0]
    simp [F32.div, hnum, F32.round, F32.mul, F32.toShort]

theorem percentage_registered :
    (∀ a ∈ List.range 5, percentage a 4 = ((100 * a / 4 : Nat) : Int))
      ∧ (∀ a ∈ List.range 6, percentage a 5 = ((100 * a / 5 : Nat) : Int))
      ∧ (∀ a ∈ List.range 9, percentage a 8 = ((100 * a / 8 : Nat) : Int)) := by
  decide

/-- Beyond the registered labels the single-precision score is not always the integer part
of `100 * len(q) / len(label)`: 53 characters of 100 score 52. -/
theorem percentage_not_floor : percentage 53 100 = 52 ∧ 100 * 53 / 100 = 53 := by
  decide

/-! ## Claims on matching -/

/-- C1: with an empty player set `handleQuery` adds no match, whatever the query and the
registry: the query is returned as it was, and a query without matches stays without. -/
theorem handleQuery_no_players (toLower : String → String)
    (isApplicable : Command → Player → Bool) (d : MPRISPrivate) (query : Query)
    (h : d.mediaPlayers = []) :
    handleQuery toLower isApplicable d query = query
      ∧ matchesFor toLower isApplicable d query.searchTerm = [] := by
  have h1 : handleQuery toLower isApplicable d query = query := by
    unfold handleQuery
    simp [h]
  have h2 : ∀ t : String, handleQuery toLower isApplicable d ⟨t, []⟩ = ⟨t, []⟩ := by
    intro t
    unfold handleQuery
    simp [h]
  exact ⟨h1, by simp [matchesFor, h2]⟩

theorem handleQuery_no_players_witness :
    (Extension (fun _ => "")).mediaPlayers = []
      ∧ handleQuery asciiLower (fun _ _ => true) (Extension (fun _ => "")) ⟨"play", []⟩
          = ⟨"play", []⟩
      ∧ matchesFor asciiLower (fun _ _ => true) (Extension (fun _ => "")) "play" = [] :=
  ⟨rfl, handleQuery_no_players asciiLower (fun _ _ => true) (Extension (fun _ => ""))
    ⟨"play", []⟩ rfl⟩

/-- C2: every match that `handleQuery` emits is for a command of the registry whose label
starts with the lower-cased query, and for a player of the player list to which the command
is applicable. -/
theorem matchesFor_sound (toLower : String → String) (isApplicable : Command → Player → Bool)
    (cs : List Command) (players : List Player) (searchTerm : String) (m : Match)
    (hm : m ∈ matchesFor toLower isApplicable (session cs players) searchTerm) :
    m.command ∈ cs ∧ startsWith m.command.label (toLower searchTerm) = true
      ∧ m.player ∈ players ∧ isApplicable m.command m.player = true :=
  have h := mem_matchesFor toLower isApplicable cs players searchTerm m hm
  ⟨h.1, h.2.1, h.2.2.1, h.2.2.2.1⟩

theorem matchesFor_sound_witness :
    (⟨pauseCommand (fun _ => ""), ⟨"org.mpris.MediaPlayer2.vlc"⟩, 40⟩ : Match)
        ∈ matchesFor asciiLower (fun _ _ => true)
            (session (registeredCommands (fun _ => "")) [⟨"org.mpris.MediaPlayer2.vlc"⟩]) "PA"
      ∧ pauseCommand (fun _ => "") ∈ registeredCommands (fun _ => "")
      ∧ startsWith (pauseCommand (fun _ => "")).label (asciiLower "PA") = true
      ∧ (⟨"org.mpris.MediaPlayer2.vlc"⟩ : Player) ∈ [(⟨"org.mpris.MediaPlayer2.vlc"⟩ : Player)]
      ∧ (fun (_ : Command) (_ : Player) => true) (pauseCommand (fun _ => ""))
          ⟨"org.mpris.MediaPlayer2.vlc"⟩ = true :=
  ⟨by decide, matchesFor_sound asciiLower (fun _ _ => true) (registeredCommands (fun _ => ""))
    [⟨"org.mpris.MediaPlayer2.vlc"⟩] "PA"
    ⟨pauseCommand (fun _ => ""), ⟨"org.mpris.MediaPlayer2.vlc"⟩, 40⟩ (by decide)⟩

/-- C3: for a registry with distinct labels, the matches that `handleQuery` emits are exactly,
in this order: for each registered command, in the order of registration, whose label starts
with the lower-cased query, and for each player of the list, in its order, to which the
command is applicable, one match of that command and that player with the score of the
command.  Nothing is emitted twice, nothing applicable is left out, and the sequence is not
sorted by score. -/
theorem matchesFor_exact (toLower : String → String) (isApplicable : Command → Player → Bool)
    (cs : List Command) (players : List Player) (searchTerm : String)
    (hnd : (cs.map Command.label).Nodup) :
    matchesFor toLower isApplicable (session cs players) searchTerm
      = (cs.filter (fun c => startsWith c.label (toLower searchTerm))).flatMap
          (fun c => (players.filter (isApplicable c)).map
            (fun p => ⟨c, p, percentage (toLower searchTerm).length c.label.length⟩)) :=
  matchesFor_session toLower isApplicable cs players hnd searchTerm

theorem matchesFor_exact_witness :
    ((registeredCommands (fun _ => "")).map Command.label).Nodup
      ∧ matchesFor asciiLower (fun c p => decide (c.label ≠ "play" ∨ p.busId = "b"))
          (session (registeredCommands (fun _ => "")) [⟨"a"⟩, ⟨"b"⟩]) "P"
        = [⟨playCommand (fun _ => ""), ⟨"b"⟩, 25⟩,
           ⟨pauseCommand (fun _ => ""), ⟨"a"⟩, 20⟩, ⟨pauseCommand (fun _ => ""), ⟨"b"⟩, 20⟩,
           ⟨previousCommand (fun _ => ""), ⟨"a"⟩, 12⟩,
           ⟨previousCommand (fun _ => ""), ⟨"b"⟩, 12⟩] :=
  ⟨by decide,
    (matchesFor_exact asciiLower (fun c p => decide (c.label ≠ "play" ∨ p.busId = "b"))
      (registeredCommands (fun _ => "")) [⟨"a"⟩, ⟨"b"⟩] "P" (by decide)).trans (by decide)⟩

/-! ## Claims on the score -/

/-- C4, counterexample: for the lower-case query `pre` and the registered command `previous`,
whose label starts with it, the score that `handleQuery` attaches is 37, whereas
`min(100, round(100 * 3 / 8))` is 38, whichever way the tie of 37.5 is rounded. -/
theorem score_not_rounded :
    asciiLower "pre" = "pre" ∧ startsWith "previous" "pre" = true
      ∧ matchesFor asciiLower (fun _ _ => true)
          (session (registeredCommands (fun _ => "")) [⟨"org.mpris.MediaPlayer2.vlc"⟩]) "pre"
        = [⟨previousCommand (fun _ => ""), ⟨"org.mpris.MediaPlayer2.vlc"⟩, 37⟩]
      ∧ specScore "pre".length "previous".length = 38
      ∧ specScoreEven "pre".length "previous".length = 38 := by
  decide

/-- C4, amended: for every query and every one of the five registered commands whose label
starts with the lower-cased query `q`, the score that `handleQuery` attaches to the matches of
the command is the single-precision value of `(float)len(q) / (float)len(label) * 100` with
its fraction cut off, which equals `min(100, floor(100 * len(q) / len(label)))`: the quotient
is not rounded to the nearest integer.  A query as long as a (non-empty) label scores 100, a
one-character query against a five-character label 20, `p` against `previous` 12 and `pre`
against `previous` 37. -/
theorem score_truncated (toLower : String → String) (isApplicable : Command → Player → Bool)
    (iconPath : String → String) (players : List Player) (searchTerm : String) (m : Match)
    (hm : m ∈ matchesFor toLower isApplicable (session (registeredCommands iconPath) players)
      searchTerm) :
    m.score = percentage (toLower searchTerm).length m.command.label.length
      ∧ m.score
        = min 100 ((100 * (toLower searchTerm).length / m.command.label.length : Nat) : Int)
      ∧ (∀ n : Nat, 0 < n → percentage n n = 100)
      ∧ percentage 1 5 = 20 ∧ percentage 1 8 = 12 ∧ percentage 3 8 = 37 := by
  obtain ⟨hmem, hstart, -, -, hscore⟩ :=
    mem_matchesFor toLower isApplicable _ players searchTerm m hm
  have hlen := startsWith_length _ _ hstart
  obtain ⟨h4, h5, h8⟩ := percentage_registered
  refine ⟨hscore, ?_, percentage_self, by decide, by decide, by decide⟩
  have hfloor : (100 * (toLower searchTerm).length / m.command.label.length : Nat) ≤ 100 := by
    rcases Nat.eq_zero_or_pos m.command.label.length with h0 | hpos
    · simp [h0]
    · calc 100 * (toLower searchTerm).length / m.command.label.length
          ≤ 100 * m.command.label.length / m.command.label.length :=
            Nat.div_le_div_right (Nat.mul_le_mul_left 100 hlen)
        _ = 100 := Nat.mul_div_cancel 100 hpos
  rw [min_eq_right (by exact_mod_cast hfloor), hscore]
  simp only [registeredCommands, List.mem_cons, List.mem_singleton, List.not_mem_nil,
    or_false] at hmem
  rcases hmem with h | h | h | h | h
  · have hl : m.command.label.length = 4 := by rw [h]; rfl
    rw [hl] at hlen ⊢
    exact h4 _ (List.mem_range.mpr (by omega))
  · have hl : m.command.label.length = 5 := by rw [h]; rfl
    rw [hl] at hlen ⊢
    exact h5 _ (List.mem_range.mpr (by omega))
  · have hl : m.command.label.length = 4 := by rw [h]; rfl
    rw [hl] at hlen ⊢
    exact h4 _ (List.mem_range.mpr (by omega))
  · have hl : m.command.label.length = 4 := by rw [h]; rfl
    rw [hl] at hlen ⊢
    exact h4 _ (List.mem_range.mpr (by omega))
  · have hl : m.command.label.length = 8 := by rw [h]; rfl
    rw [hl] at hlen ⊢
    exact h8 _ (List.mem_range.mpr (by omega))

theorem score_truncated_witness :
    (⟨previousCommand (fun _ => ""), ⟨"org.mpris.MediaPlayer2.vlc"⟩, 87⟩ : Match)
        ∈ matchesFor asciiLower (fun _ _ => true)
            (session (registeredCommands (fun _ => "")) [⟨"org.mpris.MediaPlayer2.vlc"⟩])
            "Previou"
      ∧ (87 : Int) = min 100 ((100 * (asciiLower "Previou").length
          / (previousCommand (fun _ => "")).label.length : Nat) : Int) :=
  ⟨by decide, (score_truncated asciiLower (fun _ _ => true) (fun _ => "")
    [⟨"org.mpris.MediaPlayer2.vlc"⟩] "Previou"
    ⟨previousCommand (fun _ => ""), ⟨"org.mpris.MediaPlayer2.vlc"⟩, 87⟩ (by decide)).2.1⟩

/-- C5: for a registry whose labels are non-empty, every match that `handleQuery` emits
carries a score between 0 and 100. -/
theorem score_bounds (toLower : String → String) (isApplicable : Command → Player → Bool)
    (cs : List Command) (players : List Player) (searchTerm : String)
    (hne : ∀ c ∈ cs, c.label ≠ "") (m : Match)
    (hm : m ∈ matchesFor toLower isApplicable (session cs players) searchTerm) :
    0 ≤ m.score ∧ m.score ≤ 100 := by
  obtain ⟨hmem, hstart, -, -, hscore⟩ :=
    mem_matchesFor toLower isApplicable cs players searchTerm m hm
  rw [hscore]
  exact percentage_bounds _ _ (length_pos_of_ne_empty _ (hne _ hmem))
    (startsWith_length _ _ hstart)

theorem score_bounds_witness :
    (∀ c ∈ registeredCommands (fun _ => ""), c.label ≠ "")
      ∧ (⟨stopCommand (fun _ => ""), ⟨"org.mpris.MediaPlayer2.vlc"⟩, 100⟩ : Match)
        ∈ matchesFor asciiLower (fun _ _ => true)
            (session (registeredCommands (fun _ => "")) [⟨"org.mpris.MediaPlayer2.vlc"⟩]) "STOP"
      ∧ (0 : Int) ≤ 100 ∧ (100 : Int) ≤ 100 :=
  ⟨by decide, by decide, score_bounds asciiLower (fun _ _ => true)
    (registeredCommands (fun _ => "")) [⟨"org.mpris.MediaPlayer2.vlc"⟩] "STOP" (by decide)
    ⟨stopCommand (fun _ => ""), ⟨"org.mpris.MediaPlayer2.vlc"⟩, 100⟩ (by decide)⟩

/-- C6, counterexample: the query `plays` is longer than the label `play`; `handleQuery`
computes no score for the pair and emits no match at all, and the score expression, were it
evaluated at these lengths, would give 125, not 100. -/
theorem longer_query_not_hundred :
    "play".length < (asciiLower "plays").length
      ∧ matchesFor asciiLower (fun _ _ => true)
          (session (registeredCommands (fun _ => "")) [⟨"org.mpris.MediaPlayer2.vlc"⟩]) "plays"
        = []
      ∧ percentage "plays".length "play".length = 125 := by
  decide

/-- C6, amended: a command whose label is strictly shorter than the lower-cased query gets no
match from `handleQuery`, hence no score: the test on the beginning of the label drops it
before the score is computed. -/
theorem longer_query_no_match (toLower : String → String)
    (isApplicable : Command → Player → Bool) (cs : List Command) (players : List Player)
    (searchTerm : String) (c : Command)
    (hlong : c.label.length < (toLower searchTerm).length) (m : Match)
    (hm : m ∈ matchesFor toLower isApplicable (session cs players) searchTerm) :
    m.command.label ≠ c.label := by
  obtain ⟨-, hstart, -, -, -⟩ := mem_matchesFor toLower isApplicable cs players searchTerm m hm
  have hlen := startsWith_length _ _ hstart
  intro heq
  rw [heq] at hlen
  omega

theorem longer_query_no_match_witness :
    (playCommand (fun _ => "")).label.length < (asciiLower "PAUSE").length
      ∧ (⟨pauseCommand (fun _ => ""), ⟨"org.mpris.MediaPlayer2.vlc"⟩, 100⟩ : Match)
        ∈ matchesFor asciiLower (fun _ _ => true)
            (session (registeredCommands (fun _ => "")) [⟨"org.mpris.MediaPlayer2.vlc"⟩])
            "PAUSE"
      ∧ (pauseCommand (fun _ => "")).label ≠ (playCommand (fun _ => "")).label :=
  ⟨by decide, by decide, longer_query_no_match asciiLower (fun _ _ => true)
    (registeredCommands (fun _ => "")) [⟨"org.mpris.MediaPlayer2.vlc"⟩] "PAUSE"
    (playCommand (fun _ => "")) (by decide)
    ⟨pauseCommand (fun _ => ""), ⟨"org.mpris.MediaPlayer2.vlc"⟩, 100⟩ (by decide)⟩

/-! ## Claims on discovery -/

/-- C7: when the bus is connected and answers with a reply message whose single argument is
neither null nor invalid and converts to the non-empty string list `L`, then after
`setupSession` the players are exactly one `Player` per name of `L` that starts with
`org.mpris.MediaPlayer2.`, in the order of `L`, whatever the players were before; a name of
`L` has a player if and only if it starts with that namespace; the registry is untouched. -/
theorem setupSession_players (bus : SessionBus) (d : MPRISPrivate) (arg : QVariant)
    (L : List String) (hconn : bus.isConnected = true)
    (htype : bus.call.type = MessageType.ReplyMessage) (hargs : bus.call.arguments = [arg])
    (hnull : arg.isNull = false) (hvalid : arg.isValid = true) (hL : arg.toStringList = L)
    (hne : L ≠ []) :
    (setupSession bus d).mediaPlayers
        = (L.filter (fun id => startsWith id mprisNamespace)).map Player.mk
      ∧ (∀ name : String, Player.mk name ∈ (setupSession bus d).mediaPlayers
          ↔ name ∈ L ∧ startsWith name "org.mpris.MediaPlayer2." = true)
      ∧ (setupSession bus d).commands = d.commands
      ∧ (setupSession bus d).commandObjects = d.commandObjects := by
  have hplayers : (setupSession bus d).mediaPlayers
      = (L.filter (fun id => startsWith id mprisNamespace)).map Player.mk := by
    unfold setupSession
    simp [hconn, htype, hargs, hnull, hvalid, hL, hne, foldl_append_if, foldl_append_player]
  refine ⟨hplayers, ?_, ?_, ?_⟩
  · intro name
    rw [hplayers]
    simp [List.mem_map, List.mem_filter, mprisNamespace]
  · rw [setupSession_eq]
  · rw [setupSession_eq]

theorem setupSession_players_witness :
    (setupSession
        ⟨true, ⟨MessageType.ReplyMessage,
          [QVariant.stringList ["org.mpris.MediaPlayer2.vlc", "org.freedesktop.DBus",
            "org.mpris.MediaPlayer2.mpv", "org.mpris.MediaPlayer2"]], ""⟩, fun _ _ _ => none⟩
        (session (registeredCommands (fun _ => "")) [⟨"old"⟩])).mediaPlayers
      = [⟨"org.mpris.MediaPlayer2.vlc"⟩, ⟨"org.mpris.MediaPlayer2.mpv"⟩] :=
  (setupSession_players
    ⟨true, ⟨MessageType.ReplyMessage,
      [QVariant.stringList ["org.mpris.MediaPlayer2.vlc", "org.freedesktop.DBus",
        "org.mpris.MediaPlayer2.mpv", "org.mpris.MediaPlayer2"]], ""⟩, fun _ _ _ => none⟩
    (session (registeredCommands (fun _ => "")) [⟨"old"⟩])
    (QVariant.stringList ["org.mpris.MediaPlayer2.vlc", "org.freedesktop.DBus",
      "org.mpris.MediaPlayer2.mpv", "org.mpris.MediaPlayer2"])
    ["org.mpris.MediaPlayer2.vlc", "org.freedesktop.DBus", "org.mpris.MediaPlayer2.mpv",
      "org.mpris.MediaPlayer2"]
    rfl rfl rfl rfl rfl rfl (by decide)).1.trans (by decide)

/-- C8: when the discovery fails (the bus is not connected, the response is not a reply
message, the number of its arguments is not 1, or its one argument is null, invalid or
converts to the empty string list), `setupSession` leaves the player list empty, whatever it
held before, and a following `handleQuery` adds no match for any query. -/
theorem setupSession_failure (toLower : String → String)
    (isApplicable : Command → Player → Bool) (bus : SessionBus) (d : MPRISPrivate)
    (hfail : bus.isConnected = false ∨ bus.call.type ≠ MessageType.ReplyMessage
      ∨ bus.call.arguments.length ≠ 1
      ∨ ∃ arg, bus.call.arguments = [arg]
          ∧ (arg.isNull = true ∨ arg.isValid = false ∨ arg.toStringList = [])) :
    (setupSession bus d).mediaPlayers = []
      ∧ (∀ query : Query,
          handleQuery toLower isApplicable (setupSession bus d) query = query)
      ∧ ∀ searchTerm : String,
          matchesFor toLower isApplicable (setupSession bus d) searchTerm = [] := by
  have hempty : (setupSession bus d).mediaPlayers = [] := by
    rw [setupSession_eq]
    rcases hfail with h | h | h | ⟨arg, hargs, h⟩
    · simp [h]
    · simp [h]
    · rcases hargs : bus.call.arguments with _ | ⟨arg, _ | ⟨arg2, rest⟩⟩
      · simp
      · rw [hargs] at h
        simp at h
      · simp
    · rcases h with h | h | h
      · simp [hargs, h]
      · simp [hargs, h]
      · simp [hargs, h]
  refine ⟨hempty, ?_, ?_⟩
  · intro query
    unfold handleQuery
    simp [hempty]
  · intro searchTerm
    unfold matchesFor handleQuery
    simp [hempty]

theorem setupSession_failure_witness :
    (setupSession
        ⟨true, ⟨MessageType.ReplyMessage,
          [QVariant.stringList ["org.mpris.MediaPlayer2.vlc"], QVariant.bool true], ""⟩,
          fun _ _ _ => none⟩
        (session (registeredCommands (fun _ => "")) [⟨"org.mpris.MediaPlayer2.vlc"⟩])).mediaPlayers
      = []
    ∧ matchesFor asciiLower (fun _ _ => true)
        (setupSession
          ⟨true, ⟨MessageType.ReplyMessage,
            [QVariant.stringList ["org.mpris.MediaPlayer2.vlc"], QVariant.bool true], ""⟩,
            fun _ _ _ => none⟩
          (session (registeredCommands (fun _ => "")) [⟨"org.mpris.MediaPlayer2.vlc"⟩])) "play"
      = [] :=
  have h := setupSession_failure asciiLower (fun _ _ => true)
    ⟨true, ⟨MessageType.ReplyMessage,
      [QVariant.stringList ["org.mpris.MediaPlayer2.vlc"], QVariant.bool true], ""⟩,
      fun _ _ _ => none⟩
    (session (registeredCommands (fun _ => "")) [⟨"org.mpris.MediaPlayer2.vlc"⟩])
    (Or.inr (Or.inr (Or.inl (by decide))))
  ⟨h.1, h.2.2 "play"⟩

/-! ## Claims on the applicability predicate and on the empty query -/

/-- C9: with `play` and `pause` as the constructor registers them (fourth argument `false` for
`play`, `true` for `pause`) and the predicate evaluated as the specification words it (the
value read equals `Playing`, XOR-ed with `invert`, a failed read giving false), `play` is
applicable exactly to the players whose `PlaybackStatus` reads a value other than `Playing`,
and `pause` exactly to the players whose `PlaybackStatus` reads `Playing`; hence for the
registry of `play` and `pause` and one player whose `PlaybackStatus` is `Playing`, a query
that lower-cases to `p` yields exactly one match: the command `pause` with score 20. -/
theorem playing_player_matches (toLower : String → String)
    (readProperty : String → String → String → Option QVariant) (iconPath : String → String)
    (p : Player) (searchTerm : String) (hq : toLower searchTerm = "p")
    (hstatus : readProperty p.busId "/org/mpris/MediaPlayer2"
      "org.mpris.MediaPlayer2.Player.PlaybackStatus" = some (QVariant.string "Playing")) :
    (∀ p1 : Player, Command.isApplicable readProperty (playCommand iconPath) p1 = true
        ↔ ∃ v, readProperty p1.busId "/org/mpris/MediaPlayer2"
            "org.mpris.MediaPlayer2.Player.PlaybackStatus" = some v
            ∧ v ≠ QVariant.string "Playing")
      ∧ (∀ p1 : Player, Command.isApplicable readProperty (pauseCommand iconPath) p1 = true
        ↔ readProperty p1.busId "/org/mpris/MediaPlayer2"
            "org.mpris.MediaPlayer2.Player.PlaybackStatus" = some (QVariant.string "Playing"))
      ∧ matchesFor toLower (Command.isApplicable readProperty)
          (session [playCommand iconPath, pauseCommand iconPath] [p]) searchTerm
        = [⟨pauseCommand iconPath, p, 20⟩] := by
  have hplay : ∀ p1 : Player, Command.isApplicable readProperty (playCommand iconPath) p1 = true
      ↔ ∃ v, readProperty p1.busId "/org/mpris/MediaPlayer2"
          "org.mpris.MediaPlayer2.Player.PlaybackStatus" = some v
          ∧ v ≠ QVariant.string "Playing" := by
    intro p1
    simp only [Command.isApplicable, playCommand, Command.applicableWhen, Command.new]
    cases hr : readProperty p1.busId "/org/mpris/MediaPlayer2"
      "org.mpris.MediaPlayer2.Player.PlaybackStatus" with
    | none => simp
    | some v => simp
  have hpause : ∀ p1 : Player,
      Command.isApplicable readProperty (pauseCommand iconPath) p1 = true
      ↔ readProperty p1.busId "/org/mpris/MediaPlayer2"
          "org.mpris.MediaPlayer2.Player.PlaybackStatus" = some (QVariant.string "Playing") := by
    intro p1
    simp only [Command.isApplicable, pauseCommand, Command.applicableWhen, Command.new]
    cases hr : readProperty p1.busId "/org/mpris/MediaPlayer2"
      "org.mpris.MediaPlayer2.Player.PlaybackStatus" with
    | none => simp
    | some v => simp
  refine ⟨hplay, hpause, ?_⟩
  have hnd : ([playCommand iconPath, pauseCommand iconPath].map Command.label).Nodup := by
    show ["play", "pause"].Nodup
    decide
  have h1 : Command.isApplicable readProperty (playCommand iconPath) p = false := by
    rw [Bool.eq_false_iff]
    intro h
    obtain ⟨v, hv, hne⟩ := (hplay p).mp h
    rw [hstatus] at hv
    injection hv with hv
    exact hne hv.symm
  have h2 : Command.isApplicable readProperty (pauseCommand iconPath) p = true :=
    (hpause p).mpr hstatus
  have hs1 : startsWith (playCommand iconPath).label "p" = true := by
    show startsWith "play" "p" = true
    decide
  have hs2 : startsWith (pauseCommand iconPath).label "p" = true := by
    show startsWith "pause" "p" = true
    decide
  have hl : (pauseCommand iconPath).label.length = 5 := rfl
  have hp : percentage "p".length 5 = 20 := by decide
  rw [matchesFor_session _ _ _ _ hnd, hq]
  simp [List.filter, hs1, hs2, h1, h2, hl, hp]

theorem playing_player_matches_witness :
    asciiLower "p" = "p"
      ∧ matchesFor asciiLower
          (Command.isApplicable (fun _ _ _ => some (QVariant.string "Playing")))
          (session [playCommand (fun _ => ""), pauseCommand (fun _ => "")]
            [⟨"org.mpris.MediaPlayer2.vlc"⟩]) "p"
        = [⟨pauseCommand (fun _ => ""), ⟨"org.mpris.MediaPlayer2.vlc"⟩, 20⟩] :=
  ⟨by decide, (playing_player_matches asciiLower
    (fun _ _ _ => some (QVariant.string "Playing")) (fun _ => "")
    ⟨"org.mpris.MediaPlayer2.vlc"⟩ "p" (by decide) rfl).2.2⟩

/-- C10: for a query that lower-cases to the empty string and a registry with distinct
labels, every label of the registry passes the test on its beginning, and `handleQuery` emits one match with score 0 for every
pair of a command and a player to which the command is applicable, ordered by command, then
by player; when every command is applicable to every player the result has as many matches
as there are commands times players, 10 for the five registered commands and two players. -/
theorem empty_query_matches (toLower : String → String)
    (isApplicable : Command → Player → Bool) (cs : List Command) (players : List Player)
    (searchTerm : String) (hnd : (cs.map Command.label).Nodup)
    (hq : toLower searchTerm = "") :
    (session cs players).commands.filter (fun cmd => startsWith cmd (toLower searchTerm))
        = (session cs players).commands
      ∧ matchesFor toLower isApplicable (session cs players) searchTerm
        = cs.flatMap (fun c => (players.filter (isApplicable c)).map (fun p => ⟨c, p, 0⟩))
      ∧ ((∀ c ∈ cs, ∀ p ∈ players, isApplicable c p = true) →
          (matchesFor toLower isApplicable (session cs players) searchTerm).length
            = cs.length * players.length)
      ∧ ∀ (iconPath : String → String) (p1 p2 : Player),
          (matchesFor toLower (fun _ _ => true)
            (session (registeredCommands iconPath) [p1, p2]) searchTerm).length = 10 := by
  have hall : ∀ l : List Command,
      l.filter (fun c => startsWith c.label "") = l := by
    intro l
    simp [startsWith_empty]
  have hmatches : ∀ (app : Command → Player → Bool) (l : List Command) (ps : List Player),
      (l.map Command.label).Nodup →
      matchesFor toLower app (session l ps) searchTerm
        = l.flatMap (fun c => (ps.filter (app c)).map (fun p => ⟨c, p, 0⟩)) := by
    intro app l ps hl
    rw [matchesFor_session _ _ _ _ hl, hq, hall]
    simp [percentage_zero]
  have hlen : ∀ (app : Command → Player → Bool) (l : List Command) (ps : List Player),
      (∀ c ∈ l, ∀ p ∈ ps, app c p = true) →
      (l.flatMap (fun c => (ps.filter (app c)).map (fun p => (⟨c, p, 0⟩ : Match)))).length
        = l.length * ps.length := by
    intro app l ps
    induction l with
    | nil => simp
    | cons c rest ih =>
      intro happ
      have hc : ps.filter (app c) = ps :=
        List.filter_eq_self.mpr (fun p hp => happ c (List.mem_cons_self _ _) p hp)
      have hrest := ih (fun c1 hc1 p hp => happ c1 (List.mem_cons_of_mem _ hc1) p hp)
      rw [List.flatMap_cons, List.length_append, hrest, hc, List.length_map, List.length_cons]
      ring
  refine ⟨?_, hmatches isApplicable cs players hnd, ?_, ?_⟩
  · rw [hq]
    simp [startsWith_empty]
  · intro happ
    rw [hmatches isApplicable cs players hnd]
    exact hlen isApplicable cs players happ
  · intro iconPath p1 p2
    have hlabels : ((registeredCommands iconPath).map Command.label).Nodup := by
      show ["play", "pause", "stop", "next", "previous"].Nodup
      decide
    rw [hmatches _ _ _ hlabels]
    rw [hlen _ _ _ (fun _ _ _ _ => rfl)]
    rfl

theorem empty_query_matches_witness :
    ((registeredCommands (fun _ => "")).map Command.label).Nodup ∧ asciiLower "" = ""
      ∧ matchesFor asciiLower (fun c p => decide (c.label ≠ "stop" ∨ p.busId = "b"))
          (session (registeredCommands (fun _ => "")) [⟨"a"⟩, ⟨"b"⟩]) ""
        = [⟨playCommand (fun _ => ""), ⟨"a"⟩, 0⟩, ⟨playCommand (fun _ => ""), ⟨"b"⟩, 0⟩,
           ⟨pauseCommand (fun _ => ""), ⟨"a"⟩, 0⟩, ⟨pauseCommand (fun _ => ""), ⟨"b"⟩, 0⟩,
           ⟨stopCommand (fun _ => ""), ⟨"b"⟩, 0⟩,
           ⟨nextCommand (fun _ => ""), ⟨"a"⟩, 0⟩, ⟨nextCommand (fun _ => ""), ⟨"b"⟩, 0⟩,
           ⟨previousCommand (fun _ => ""), ⟨"a"⟩, 0⟩,
           ⟨previousCommand (fun _ => ""), ⟨"b"⟩, 0⟩] :=
  ⟨by decide, by decide,
    (empty_query_matches asciiLower (fun c p => decide (c.label ≠ "stop" ∨ p.busId = "b"))
      (registeredCommands (fun _ => "")) [⟨"a"⟩, ⟨"b"⟩] "" (by decide) (by decide)).2.1.trans
      (by decide)⟩

end MPRIS
